import Mathlib

/-!
Verification of the C++ include-graph generator (`include_graph.py`).

The development shallowly embeds the core pipeline of the script:
directive scanning (`process_line`), graph building over decoded lines
(`build_graph`), header/source merging (`merge_header`), reachability
extraction (modelling `nx.descendants` plus `DiGraph.subgraph`), and node
metrics (`determ_category`, `calc_node_size`).  Strings are manipulated
through their character lists; graphs are finite sets of string nodes and
string-pair edges, matching networkx's unique-node/unique-edge semantics.
-/

/-- The ASCII whitespace characters stripped by Python's `str.strip()` and
matched by the regex class `\s` (the files scanned are ASCII-oriented
source code, so the Unicode extension of `\s` is not modelled). -/
def isPySpace (c : Char) : Bool :=
  c = ' ' || c = '\t' || c = '\n' || c = '\r' || c = '\x0b' || c = '\x0c'

/-- Python `line.strip()`: remove leading and trailing whitespace. -/
def pyStrip (l : List Char) : List Char :=
  ((l.dropWhile isPySpace).reverse.dropWhile isPySpace).reverse

/-- Characters accepted by the regex class `[<"]` (opening delimiter). -/
def isOpenDelim (c : Char) : Bool := c = '<' || c = '"'

/-- Characters accepted by the regex class `[">]` (closing delimiter). -/
def isCloseDelim (c : Char) : Bool := c = '>' || c = '"'

/-- `re.match('#\s*(include|INCLUDE)', s)` succeeds: the string starts with
`#`, then optional whitespace, then the literal `include` or `INCLUDE`. -/
def matches_directive : List Char → Bool
  | '#' :: rest =>
      let r := rest.dropWhile isPySpace
      "include".data.isPrefixOf r || "INCLUDE".data.isPrefixOf r
  | _ => false

/-- The segment of `l` strictly before the LAST closing delimiter of `l`
(`none` when `l` has no closing delimiter).  This is what the greedy `.+`
of the pattern `[<"](.+)[">]` consumes after an opening delimiter. -/
def beforeLastClose : List Char → Option (List Char)
  | [] => none
  | c :: rest =>
      match beforeLastClose rest with
      | some content => some (c :: content)
      | none => if isCloseDelim c then some [] else none

/-- `re.search('[<"](?P<include>.+)[">]', s)`: scan for the leftmost
opening delimiter from which the greedy `.+` can reach a closing
delimiter; the captured group runs to the last closing delimiter after
that opening and must be non-empty (`.+`). -/
def extract_include : List Char → Option (List Char)
  | [] => none
  | c :: rest =>
      if isOpenDelim c then
        match beforeLastClose rest with
        | some content =>
            if content = [] then extract_include rest else some content
        | none => extract_include rest
      else extract_include rest

/-- `process_line` of `build_graph` (src/include_graph.py:27-40) applied to
one raw input line: the line is stripped, must match the include-directive
prefix, and then the first delimited run is extracted; the run must be
non-empty (the explicit `if not included_file` check of the source, dead
because `.+` already guarantees non-emptiness).  Returns the included name
when the line contributes an edge. -/
def process_line (line : List Char) : Option (List Char) :=
  let s := pyStrip line
  if matches_directive s then
    match extract_include s with
    | some inc => if inc.isEmpty then none else some inc
    | none => none
  else none

/-- Spec-side predicate: the line contains a non-empty run of characters
between an opening `<` or `"` and a later closing `>` or `"`. -/
def has_delim_run : List Char → Bool
  | [] => false
  | c :: rest => (isOpenDelim c && (rest.drop 1).any isCloseDelim) || has_delim_run rest

/-- A directed graph over string identities, as maintained by
`networkx.DiGraph`: a node set and an edge set with unique-node and
unique-edge semantics. -/
structure DiGraph where
  nodes : Finset String
  edges : Finset (String × String)

theorem DiGraph.ext {g h : DiGraph} (hn : g.nodes = h.nodes)
    (he : g.edges = h.edges) : g = h := by
  cases g; cases h; simp_all

instance : DecidableEq DiGraph := fun g h =>
  decidable_of_iff (g.nodes = h.nodes ∧ g.edges = h.edges)
    ⟨fun ⟨hn, he⟩ => DiGraph.ext hn he, fun he => by subst he; exact ⟨rfl, rfl⟩⟩

instance {ε α : Type} [DecidableEq ε] [DecidableEq α] :
    DecidableEq (Except ε α) := fun a b =>
  match a, b with
  | .error e, .error f =>
      decidable_of_iff (e = f) ⟨fun h => by rw [h], Except.error.inj⟩
  | .ok x, .ok y =>
      decidable_of_iff (x = y) ⟨fun h => by rw [h], Except.ok.inj⟩
  | .error _, .ok _ => isFalse (by simp)
  | .ok _, .error _ => isFalse (by simp)

/-- `nx.DiGraph()`. -/
def DiGraph.empty : DiGraph := ⟨∅, ∅⟩

/-- `graph.add_edge(u, v)`: inserts the edge and auto-creates both
endpoint nodes. -/
def DiGraph.add_edge (g : DiGraph) (u v : String) : DiGraph :=
  ⟨insert u (insert v g.nodes), insert (u, v) g.edges⟩

/-- networkx's structural invariant: every edge endpoint is a node. -/
def DiGraph.Closed (g : DiGraph) : Prop :=
  ∀ e ∈ g.edges, e.1 ∈ g.nodes ∧ e.2 ∈ g.nodes

instance (g : DiGraph) : Decidable g.Closed := by
  unfold DiGraph.Closed; infer_instance

/-- A scanned file, as seen by `build_graph`'s inner loop: a sequence of
line-read results, where `none` marks the point at which iterating the
file raises `UnicodeDecodeError` (the bytes cannot be decoded). -/
abbrev FileLines := List (Option String)

/-- The `try: for line in f: process_line(...) except UnicodeDecodeError:
pass` loop of `build_graph` (src/include_graph.py:44-50) on one file:
lines are processed in order until the list ends or a decode failure is
hit, at which point the graph accumulated so far is kept and the rest of
the file is skipped. -/
def scan_file (g : DiGraph) (src : String) : FileLines → DiGraph
  | [] => g
  | none :: _ => g
  | some line :: rest =>
      match process_line line.data with
      | some inc => scan_file (g.add_edge src ⟨inc⟩) src rest
      | none => scan_file g src rest

/-- `build_graph` (src/include_graph.py:23-52) over an abstract directory
listing: each file is given by its root-relative path identity and its
line-read results (filesystem traversal is outside the embedded core). -/
def build_graph (files : List (String × FileLines)) : DiGraph :=
  files.foldl (fun g f => scan_file g f.1 f.2) DiGraph.empty

/-- Python `s.endswith(suffix)`. -/
def str_ends (s suffix : String) : Bool := suffix.data.isSuffixOf s.data

/-- Python `s.startswith(p)`. -/
def str_starts (s p : String) : Bool := p.data.isPrefixOf s.data

/-- The segment of `l` strictly before its LAST `'.'`, or `none` when `l`
contains no `'.'`: this is `l.rsplit('.', maxsplit=1)[0]` (and the `none`
case corresponds to `rsplit` returning the whole string). -/
def before_last_dot : List Char → Option (List Char)
  | [] => none
  | c :: rest =>
      match before_last_dot rest with
      | some p => some (c :: p)
      | none => if c = '.' then some [] else none

/-- `get_prefix` (src/include_graph.py:16-20): strip a trailing `.h` or
`.cpp` suffix via `rsplit('.', maxsplit=1)[0]`; identities without such a
suffix are their own stem. -/
def get_prefix (node : String) : String :=
  if str_ends node ".h" || str_ends node ".cpp" then
    match before_last_dot node.data with
    | some p => ⟨p⟩
    | none => node
  else node

/-- `CATEGORYLIST` of `draw_graph` (src/include_graph.py:61). -/
def CATEGORYLIST : List String := ["cpp", "h", "\"module\"", "other"]

/-- `determ_category` (src/include_graph.py:63-73): category index by
suffix/marker inspection, `cpp` suffix before `h` suffix before the
`[merged]` marker. -/
def determ_category (node : String) : Nat :=
  if str_ends node "cpp" then 0
  else if str_ends node "h" then 1
  else if str_starts node "[merged]" then 2
  else 3

/-- Total in-plus-out degree of a node, as `nx.DiGraph.degree`: the number
of edges leaving the node plus the number of edges entering it (a
self-loop counts twice). -/
def DiGraph.degree (g : DiGraph) (node : String) : Nat :=
  (g.edges.filter (fun e => e.1 = node)).card
    + (g.edges.filter (fun e => e.2 = node)).card

/-- `calc_node_size` (src/include_graph.py:75-82):
`math.floor(SIZE_FACTOR * math.log1p(graph.degree(node))) + 1` with
`SIZE_FACTOR = 3`, where `math.log1p x = ln (1 + x)`, modelled over the
exact reals (the source computes with floating point). -/
noncomputable def calc_node_size (g : DiGraph) (node : String) : ℤ :=
  ⌊(3 : ℝ) * Real.log (1 + (g.degree node : ℝ))⌋ + 1

/-- The `can_merge` map of `merge_header` (src/include_graph.py:128-134):
built by iterating the graph's nodes, a stem maps to `True` exactly when
at least two distinct node identities share it. -/
def can_merge (g : DiGraph) (p : String) : Bool :=
  2 ≤ (g.nodes.filter (fun n => get_prefix n = p)).card

/-- The endpoint substitution of `merge_header`'s edge loop
(src/include_graph.py:140-144): an endpoint whose stem is merge-eligible
is replaced by the `[merged]`-prefixed stem. -/
def merge_rename (g : DiGraph) (v : String) : String :=
  if can_merge g ( get_prefix v) then "[merged]" ++ get_prefix v else v

/-- `merge_header` (src/include_graph.py:124-146): a fresh graph built by
inserting, for every edge of the input, the edge with both endpoints
substituted through `merge_rename` (`result.add_edge(*new_edge)`); the
result's nodes are therefore exactly the endpoints of the substituted
edges.  (The source indexes `can_merge` at each endpoint's stem, which is
present whenever edge endpoints are graph nodes, i.e. on `Closed`
graphs.) -/
def merge_header (g : DiGraph) : DiGraph :=
  ⟨g.edges.image (fun e => merge_rename g e.1)
      ∪ g.edges.image (fun e => merge_rename g e.2),
    g.edges.image (fun e => (merge_rename g e.1, merge_rename g e.2))⟩

/-- One breadth step of forward reachability: add the head-successors of
the current node set. -/
def edgeStep (g : DiGraph) (s : Finset String) : Finset String :=
  s ∪ (g.edges.filter (fun e => e.1 ∈ s)).image Prod.snd

/-- Iterated breadth steps. -/
def reachAux (g : DiGraph) : Nat → Finset String → Finset String
  | 0, s => s
  | n + 1, s => reachAux g n (edgeStep g s)

/-- Modelled from the documented semantics of `networkx.descendants`
(called at src/include_graph.py:185): all nodes reachable from `v` by
forward edges, excluding `v` itself.  Computed by saturating breadth
steps; `g.nodes.card` steps suffice on closed graphs. -/
def descendants (g : DiGraph) (v : String) : Finset String :=
  (reachAux g g.nodes.card {v}).erase v

/-- Modelled from `networkx.descendants`' error contract: it raises
`NetworkXError` when the source node is not in the graph. -/
def descendants_checked (g : DiGraph) (v : String) : Except String (Finset String) :=
  if v ∈ g.nodes then .ok (descendants g v) else .error "node not in digraph"

/-- `nx.DiGraph.subgraph s` (src/include_graph.py:183): the induced
subgraph on the given identities — the nodes of the graph that lie in
`s`, and the edges both of whose endpoints survive. -/
def DiGraph.subgraph (g : DiGraph) (s : Finset String) : DiGraph :=
  ⟨g.nodes ∩ s,
    g.edges.filter (fun e => e.1 ∈ g.nodes ∩ s ∧ e.2 ∈ g.nodes ∩ s)⟩

/-- The reachability extraction of the main block
(src/include_graph.py:183-185):
`include_graph.subgraph(chain([entry], nx.descendants(include_graph, entry)))`. -/
def reach_subgraph (g : DiGraph) (entry : String) : DiGraph :=
  g.subgraph (insert entry (descendants g entry))

/-- The same extraction with `nx.descendants`' missing-node failure made
explicit as an `Except` value. -/
def extract_subgraph (g : DiGraph) (entry : String) : Except String DiGraph :=
  match descendants_checked g entry with
  | .error e => .error e
  | .ok ds => .ok (g.subgraph (insert entry ds))

/-- Forward reachability by zero or more edges, the specification-side
notion of "node reachable from the entry by following edges forward". -/
abbrev Reaches (g : DiGraph) (u v : String) : Prop :=
  Relation.ReflTransGen (fun a b => (a, b) ∈ g.edges) u v

/-- Spec-side: no stem of the graph is merge-eligible, i.e. no two
distinct node identities share the same stem. -/
def NoSharedStem (g : DiGraph) : Prop :=
  ∀ u ∈ g.nodes, ∀ v ∈ g.nodes, u ≠ v → get_prefix u ≠ get_prefix v

instance (g : DiGraph) : Decidable (NoSharedStem g) := by
  unfold NoSharedStem; infer_instance

/-- The reachability test graph of the spec: edges
`m.cpp -> x.h -> y.h` and the unrelated edge `z.h -> w.h`. -/
def sample_tree_graph : DiGraph :=
  ((DiGraph.empty.add_edge "m.cpp" "x.h").add_edge "x.h" "y.h").add_edge "z.h" "w.h"

/-- A two-node graph with a single edge and no shared stems. -/
def sample_pair_graph : DiGraph :=
  DiGraph.empty.add_edge "a.cpp" "b.h"

/-- A graph whose isolated node `[merged]foo` collides with the synthetic
identity produced by merging `foo.cpp` with `foo.h`. -/
def collision_graph : DiGraph :=
  ⟨{"[merged]foo", "foo.cpp", "foo.h"}, {("foo.cpp", "foo.h")}⟩

/-! ### Scanner lemmas -/

theorem beforeLastClose_isSome (l : List Char) :
    (beforeLastClose l).isSome = l.any isCloseDelim := by
  induction l with
  | nil => rfl
  | cons c rest ih =>
    rw [List.any_cons, ← ih]
    simp only [beforeLastClose]
    split
    · next content heq => rw [heq]; simp
    · next heq => rw [heq]; by_cases hc : isCloseDelim c <;> simp [hc]

theorem beforeLastClose_drop (l content : List Char)
    (h : beforeLastClose l = some content) :
    (l.drop 1).any isCloseDelim = !content.isEmpty := by
  cases l with
  | nil => simp [beforeLastClose] at h
  | cons c rest =>
    have hs := beforeLastClose_isSome rest
    simp only [beforeLastClose] at h
    split at h
    · next ct heq =>
      obtain rfl : c :: ct = content := Option.some.inj h
      rw [heq] at hs
      simp only [Option.isSome_some] at hs
      simp [← hs]
    · next heq =>
      rw [heq] at hs
      simp only [Option.isSome_none] at hs
      split at h
      · obtain rfl : ([] : List Char) = content := Option.some.inj h
        simp [← hs]
      · exact absurd h (by simp)

theorem any_drop_one_false {l : List Char} {p : Char → Bool}
    (h : l.any p = false) : (l.drop 1).any p = false := by
  cases l with
  | nil => rfl
  | cons c rest =>
    simp only [List.any_cons, Bool.or_eq_false_iff] at h
    simpa using h.2

theorem extract_include_ne_nil :
    ∀ (s inc : List Char), extract_include s = some inc → inc ≠ [] := by
  intro s
  induction s with
  | nil => intro inc h; simp [extract_include] at h
  | cons c rest ih =>
    intro inc h
    simp only [extract_include] at h
    split at h
    · split at h
      · next content heq =>
        split at h
        · exact ih inc h
        · next hne =>
          obtain rfl : content = inc := Option.some.inj h
          exact hne
      · exact ih inc h
    · exact ih inc h

theorem extract_include_isSome (s : List Char) :
    (extract_include s).isSome = has_delim_run s := by
  induction s with
  | nil => rfl
  | cons c rest ih =>
    simp only [has_delim_run]
    rw [← ih]
    simp only [extract_include]
    split
    · next hc =>
      split
      · next content heq =>
        have hd := beforeLastClose_drop rest content heq
        split
        · next hce =>
          subst hce
          simp only [List.isEmpty_nil, Bool.not_true] at hd
          rw [hd, Bool.and_false, Bool.false_or]
        · next hce =>
          have hcf : content.isEmpty = false := by
            cases content with
            | nil => exact absurd rfl hce
            | cons _ _ => rfl
          rw [hcf] at hd
          simp only [Bool.not_false] at hd
          rw [hc, hd]
          simp only [Option.isSome_some, Bool.true_and, Bool.true_or]
      · next heq =>
        have hany : rest.any isCloseDelim = false := by
          have hs := beforeLastClose_isSome rest
          rw [heq] at hs
          exact hs.symm
        rw [any_drop_one_false hany]
        simp
    · next hc =>
      have hcf : isOpenDelim c = false := by simpa using hc
      rw [hcf]
      simp

theorem process_line_isSome (line : List Char) :
    (process_line line).isSome
      = (matches_directive (pyStrip line) && has_delim_run (pyStrip line)) := by
  simp only [process_line]
  by_cases hm : matches_directive (pyStrip line)
  · rw [if_pos hm, hm, Bool.true_and, ← extract_include_isSome]
    cases he : extract_include (pyStrip line) with
    | some inc =>
      have hne : inc.isEmpty = false := by
        have := extract_include_ne_nil (pyStrip line) inc he
        cases inc with
        | nil => exact absurd rfl this
        | cons _ _ => rfl
      simp [hne]
    | none => simp
  · rw [if_neg hm]
    simp only [Bool.not_eq_true] at hm
    simp [hm]

/-- C1: a scanned line yields an included name exactly when, after
stripping, it begins with `#`, optional whitespace and `include` or
`INCLUDE`, and it contains a non-empty run of characters between an
opening `<` or `"` and a later closing `>` or `"`; at most one name is
yielded per line; in particular `#include <x>` and `#  INCLUDE "x"` both
yield `x` and `// #include <x>` yields nothing. -/
theorem scanner_line_spec :
    (∀ line : List Char,
        ((process_line line).isSome
            = (matches_directive (pyStrip line) && has_delim_run (pyStrip line)))
          ∧ ∀ x y, process_line line = some x → process_line line = some y → x = y)
      ∧ process_line "#include <x>".data = some "x".data
      ∧ process_line "#  INCLUDE \"x\"".data = some "x".data
      ∧ process_line "// #include <x>".data = none := by
  refine ⟨fun line => ⟨process_line_isSome line, ?_⟩, by decide, by decide, by decide⟩
  intro x y hx hy
  rw [hx] at hy
  exact Option.some.inj hy

theorem scanner_line_spec_witness :
    process_line "#include <w>".data = some "w".data ∧ "w".data = "w".data :=
  ⟨by decide,
    (scanner_line_spec.1 "#include <w>".data).2 "w".data "w".data (by decide) (by decide)⟩

/-! ### Reachability lemmas -/

theorem edgeStep_infl (g : DiGraph) (s : Finset String) : s ⊆ edgeStep g s :=
  Finset.subset_union_left

theorem reachAux_infl (g : DiGraph) :
    ∀ (n : Nat) (s : Finset String), s ⊆ reachAux g n s
  | 0, _ => Finset.Subset.refl _
  | n + 1, s =>
      Finset.Subset.trans (edgeStep_infl g s) (reachAux_infl g n (edgeStep g s))

theorem edgeStep_subset_nodes (g : DiGraph) (hg : g.Closed) (s : Finset String)
    (hs : s ⊆ g.nodes) : edgeStep g s ⊆ g.nodes := by
  intro x hx
  rcases Finset.mem_union.mp hx with h | h
  · exact hs h
  · obtain ⟨e, he, rfl⟩ := Finset.mem_image.mp h
    exact (hg e (Finset.mem_filter.mp he).1).2

theorem reachAux_subset_nodes (g : DiGraph) (hg : g.Closed) :
    ∀ (n : Nat) (s : Finset String), s ⊆ g.nodes → reachAux g n s ⊆ g.nodes
  | 0, _, hs => hs
  | n + 1, s, hs =>
      reachAux_subset_nodes g hg n _ (edgeStep_subset_nodes g hg s hs)

theorem reachAux_of_fix (g : DiGraph) {s : Finset String}
    (h : edgeStep g s = s) : ∀ n, reachAux g n s = s
  | 0 => rfl
  | n + 1 => by
      show reachAux g n (edgeStep g s) = s
      rw [h]
      exact reachAux_of_fix g h n

theorem reachAux_progress (g : DiGraph) :
    ∀ (n : Nat) (s : Finset String),
      edgeStep g (reachAux g n s) = reachAux g n s
        ∨ n + s.card ≤ (reachAux g n s).card := by
  intro n
  induction n with
  | zero => intro s; right; simp [reachAux]
  | succ n ih =>
    intro s
    by_cases hfix : edgeStep g s = s
    · left
      have h1 : reachAux g (n + 1) s = s := reachAux_of_fix g hfix (n + 1)
      rw [h1]
      exact hfix
    · have hstep : reachAux g (n + 1) s = reachAux g n (edgeStep g s) := rfl
      rcases ih (edgeStep g s) with h | h
      · left
        rw [hstep]
        exact h
      · right
        have hlt : s.card < (edgeStep g s).card :=
          Finset.card_lt_card
            (lt_of_le_of_ne (edgeStep_infl g s) (fun h => hfix h.symm))
        rw [hstep]
        omega

theorem reach_fixpoint (g : DiGraph) (hg : g.Closed) (v : String)
    (hv : v ∈ g.nodes) :
    edgeStep g (reachAux g g.nodes.card {v}) = reachAux g g.nodes.card {v} := by
  rcases reachAux_progress g g.nodes.card {v} with h | h
  · exact h
  · exfalso
    have hsub : reachAux g g.nodes.card {v} ⊆ g.nodes :=
      reachAux_subset_nodes g hg _ _ (Finset.singleton_subset_iff.mpr hv)
    have hle := Finset.card_le_card hsub
    rw [Finset.card_singleton] at h
    omega

theorem reachAux_sound (g : DiGraph) (v : String) :
    ∀ (n : Nat) (s : Finset String), (∀ x ∈ s, Reaches g v x) →
      ∀ w ∈ reachAux g n s, Reaches g v w
  | 0, _, hs, w, hw => hs w hw
  | n + 1, s, hs, w, hw => by
    refine reachAux_sound g v n (edgeStep g s) ?_ w hw
    intro x hx
    rcases Finset.mem_union.mp hx with h | h
    · exact hs x h
    · obtain ⟨e, he, rfl⟩ := Finset.mem_image.mp h
      have hmem := Finset.mem_filter.mp he
      refine Relation.ReflTransGen.tail (hs e.1 hmem.2) ?_
      rw [Prod.mk.eta]
      exact hmem.1

theorem reach_complete (g : DiGraph) (hg : g.Closed) (v : String)
    (hv : v ∈ g.nodes) (w : String) (hw : Reaches g v w) :
    w ∈ reachAux g g.nodes.card {v} := by
  induction hw with
  | refl => exact reachAux_infl g _ {v} (Finset.mem_singleton_self v)
  | @tail b c _ hbc ih =>
    have hfix := reach_fixpoint g hg v hv
    rw [← hfix]
    refine Finset.mem_union_right _ ?_
    exact Finset.mem_image.mpr ⟨(b, c), Finset.mem_filter.mpr ⟨hbc, ih⟩, rfl⟩

theorem mem_reach_iff (g : DiGraph) (hg : g.Closed) (v : String)
    (hv : v ∈ g.nodes) (w : String) :
    w ∈ reachAux g g.nodes.card {v} ↔ Reaches g v w := by
  constructor
  · intro h
    refine reachAux_sound g v _ {v} ?_ w h
    intro x hx
    rw [Finset.mem_singleton] at hx
    subst hx
    exact Relation.ReflTransGen.refl
  · exact reach_complete g hg v hv w

theorem insert_descendants (g : DiGraph) (v : String) :
    insert v (descendants g v) = reachAux g g.nodes.card {v} :=
  Finset.insert_erase (reachAux_infl g _ {v} (Finset.mem_singleton_self v))

/-- C2: on any closed graph, including cyclic ones, extraction from an
entry node returns the induced subgraph on the forward-reachability
closure of the entry: the nodes are exactly the graph nodes reachable
from the entry (the entry included) and the edges are exactly the graph
edges with both endpoints in the closure; concretely, from the graph
`m.cpp -> x.h -> y.h`, `z.h -> w.h`, extraction at `m.cpp` yields nodes
`{m.cpp, x.h, y.h}` and edges `{m.cpp->x.h, x.h->y.h}`. -/
theorem reach_extraction_spec :
    (∀ (g : DiGraph) (entry : String), g.Closed → entry ∈ g.nodes →
        extract_subgraph g entry = Except.ok (reach_subgraph g entry)
          ∧ (∀ w, w ∈ (reach_subgraph g entry).nodes
              ↔ w ∈ g.nodes ∧ Reaches g entry w)
          ∧ ∀ e, e ∈ (reach_subgraph g entry).edges
              ↔ e ∈ g.edges ∧ Reaches g entry e.1 ∧ Reaches g entry e.2)
      ∧ reach_subgraph sample_tree_graph "m.cpp"
          = ⟨{"m.cpp", "x.h", "y.h"}, {("m.cpp", "x.h"), ("x.h", "y.h")}⟩ := by
  constructor
  · intro g entry hg hv
    have hR := insert_descendants g entry
    refine ⟨?_, ?_, ?_⟩
    · simp [extract_subgraph, descendants_checked, hv, reach_subgraph]
    · intro w
      show w ∈ g.nodes ∩ insert entry (descendants g entry) ↔ _
      rw [hR, Finset.mem_inter, mem_reach_iff g hg entry hv w]
    · intro e
      show e ∈ g.edges.filter _ ↔ _
      rw [Finset.mem_filter]
      simp only [Finset.mem_inter, hR, mem_reach_iff g hg entry hv]
      constructor
      · rintro ⟨he, ⟨_, h1⟩, ⟨_, h2⟩⟩
        exact ⟨he, h1, h2⟩
      · rintro ⟨he, h1, h2⟩
        exact ⟨he, ⟨(hg e he).1, h1⟩, ⟨(hg e he).2, h2⟩⟩
  · decide

theorem reach_extraction_spec_witness :
    DiGraph.Closed sample_tree_graph ∧ "m.cpp" ∈ sample_tree_graph.nodes
      ∧ (extract_subgraph sample_tree_graph "m.cpp"
            = Except.ok (reach_subgraph sample_tree_graph "m.cpp")
          ∧ (∀ w, w ∈ (reach_subgraph sample_tree_graph "m.cpp").nodes
              ↔ w ∈ sample_tree_graph.nodes ∧ Reaches sample_tree_graph "m.cpp" w)
          ∧ ∀ e, e ∈ (reach_subgraph sample_tree_graph "m.cpp").edges
              ↔ e ∈ sample_tree_graph.edges ∧ Reaches sample_tree_graph "m.cpp" e.1
                  ∧ Reaches sample_tree_graph "m.cpp" e.2) :=
  ⟨by decide, by decide,
    reach_extraction_spec.1 sample_tree_graph "m.cpp" (by decide) (by decide)⟩

/-- C3: extracting reachability at an entry identity that is not a node
fails with the distinct missing-entry-node error (never an `ok` graph,
empty or otherwise), while an entry node with no outgoing edges is the
valid case and yields the singleton closure. -/
theorem missing_entry_spec (g : DiGraph) (entry : String) :
    (entry ∉ g.nodes →
        extract_subgraph g entry = Except.error "node not in digraph"
          ∧ ∀ h, extract_subgraph g entry ≠ Except.ok h)
      ∧ (entry ∈ g.nodes → (∀ e ∈ g.edges, e.1 ≠ entry) →
          extract_subgraph g entry = Except.ok ⟨{entry}, ∅⟩) := by
  constructor
  · intro hmem
    have herr : extract_subgraph g entry = Except.error "node not in digraph" := by
      simp [extract_subgraph, descendants_checked, hmem]
    exact ⟨herr, fun h hok => by rw [herr] at hok; exact Except.noConfusion hok⟩
  · intro hmem hout
    have hfix : edgeStep g {entry} = {entry} := by
      unfold edgeStep
      have : g.edges.filter (fun e => e.1 ∈ ({entry} : Finset String)) = ∅ := by
        refine Finset.filter_eq_empty_iff.mpr ?_
        intro e he
        simp only [Finset.mem_singleton]
        exact hout e he
      rw [this]
      simp
    have hreach : reachAux g g.nodes.card {entry} = {entry} :=
      reachAux_of_fix g hfix g.nodes.card
    have hdesc : descendants g entry = ∅ := by
      unfold descendants
      rw [hreach]
      simp
    have hins : insert entry (descendants g entry) = {entry} := by
      rw [hdesc]
      rfl
    have hnodes : g.nodes ∩ ({entry} : Finset String) = {entry} := by
      rw [Finset.inter_comm]
      exact Finset.singleton_inter_of_mem hmem
    simp only [extract_subgraph, descendants_checked, if_pos hmem]
    refine congrArg Except.ok (DiGraph.ext ?_ ?_)
    · show g.nodes ∩ insert entry (descendants g entry) = {entry}
      rw [hins, hnodes]
    · show g.edges.filter _ = ∅
      refine Finset.filter_eq_empty_iff.mpr ?_
      intro e he
      rw [hins, hnodes]
      simp only [Finset.mem_singleton, not_and]
      intro h1
      exact absurd h1 (hout e he)
  
theorem missing_entry_spec_witness :
    ("absent.cpp" ∉ sample_pair_graph.nodes
        ∧ extract_subgraph sample_pair_graph "absent.cpp"
            = Except.error "node not in digraph")
      ∧ ("b.h" ∈ sample_pair_graph.nodes
        ∧ (∀ e ∈ sample_pair_graph.edges, e.1 ≠ "b.h")
        ∧ extract_subgraph sample_pair_graph "b.h" = Except.ok ⟨{"b.h"}, ∅⟩) :=
  ⟨⟨by decide,
      ((missing_entry_spec sample_pair_graph "absent.cpp").1 (by decide)).1⟩,
    by decide, by decide,
    (missing_entry_spec sample_pair_graph "b.h").2 (by decide) (by decide)⟩

/-! ### Merge lemmas -/

theorem can_merge_false_of_noShared (g : DiGraph) (hg : NoSharedStem g)
    (p : String) : can_merge g p = false := by
  unfold can_merge
  rw [decide_eq_false_iff_not]
  intro h2
  obtain ⟨a, ha, b, hb, hab⟩ := Finset.one_lt_card.mp h2
  obtain ⟨han, hap⟩ := Finset.mem_filter.mp ha
  obtain ⟨hbn, hbp⟩ := Finset.mem_filter.mp hb
  exact hg a han b hbn hab (hap.trans hbp.symm)

theorem merge_rename_id (g : DiGraph) (hg : NoSharedStem g) (v : String) :
    merge_rename g v = v := by
  unfold merge_rename
  rw [can_merge_false_of_noShared g hg]
  simp

theorem str_starts_append (p s : String) : str_starts (p ++ s) p = true := by
  unfold str_starts
  rw [String.data_append]
  simp [List.isPrefixOf_iff_prefix, List.prefix_append]

/-- C4 counterexample: the single-node graph `{a.cpp}` with no edges has
no merge-eligible stem, yet `merge_header` drops its isolated node, so
the output is not isomorphic to the input. -/
theorem merge_no_eligible_counterexample :
    DiGraph.Closed ⟨{"a.cpp"}, ∅⟩ ∧ NoSharedStem ⟨{"a.cpp"}, ∅⟩
      ∧ (merge_header ⟨{"a.cpp"}, ∅⟩).nodes ≠ (⟨{"a.cpp"}, ∅⟩ : DiGraph).nodes := by
  decide

/-- C4 (amended): on a closed graph with no merge-eligible stem in which
every node is an endpoint of at least one edge, `merge_header` returns a
graph with exactly the same node set and the same edge set (the original
claim fails on graphs with isolated nodes, which `merge_header` drops). -/
theorem merge_no_eligible_roundtrip (g : DiGraph) (hclosed : g.Closed)
    (hstem : NoSharedStem g)
    (hcov : ∀ v ∈ g.nodes, ∃ e ∈ g.edges, v = e.1 ∨ v = e.2) :
    merge_header g = g := by
  have hid : ∀ v, merge_rename g v = v := merge_rename_id g hstem
  refine DiGraph.ext ?_ ?_
  · show g.edges.image (fun e => merge_rename g e.1)
        ∪ g.edges.image (fun e => merge_rename g e.2) = g.nodes
    simp only [hid]
    ext w
    rw [Finset.mem_union, Finset.mem_image, Finset.mem_image]
    constructor
    · rintro (⟨e, he, rfl⟩ | ⟨e, he, rfl⟩)
      · exact (hclosed e he).1
      · exact (hclosed e he).2
    · intro hw
      obtain ⟨e, he, h | h⟩ := hcov w hw
      · exact Or.inl ⟨e, he, h.symm⟩
      · exact Or.inr ⟨e, he, h.symm⟩
  · show g.edges.image (fun e => (merge_rename g e.1, merge_rename g e.2)) = g.edges
    simp only [hid]
    have hfun : (fun (e : String × String) => (e.1, e.2)) = id :=
      funext fun e => Prod.mk.eta
    rw [hfun, Finset.image_id]

theorem merge_no_eligible_roundtrip_witness :
    DiGraph.Closed sample_pair_graph ∧ NoSharedStem sample_pair_graph
      ∧ (∀ v ∈ sample_pair_graph.nodes,
          ∃ e ∈ sample_pair_graph.edges, v = e.1 ∨ v = e.2)
      ∧ merge_header sample_pair_graph = sample_pair_graph :=
  ⟨by decide, by decide, by decide,
    merge_no_eligible_roundtrip sample_pair_graph (by decide) (by decide) (by decide)⟩

/-- C5 counterexample: in the graph with the single edge
`foo.h -> foo`, the bare endpoint `foo` (no recognized suffix, its own
stem) collides with the stem of `foo.h` and IS remapped: the merged graph
loses `foo` and gains `[merged]foo`. -/
theorem bare_merge_counterexample :
    (str_ends "foo" ".h" = false ∧ str_ends "foo" ".cpp" = false)
      ∧ ("foo.h", "foo") ∈ (DiGraph.empty.add_edge "foo.h" "foo").edges
      ∧ "foo" ∉ (merge_header (DiGraph.empty.add_edge "foo.h" "foo")).nodes
      ∧ "[merged]foo" ∈ (merge_header (DiGraph.empty.add_edge "foo.h" "foo")).nodes := by
  decide

/-- C5 (amended): a bare edge endpoint (no recognized suffix, hence its
own stem) is never remapped and survives into the merged graph PROVIDED
no other node of the graph has the bare identity as its stem; the
original unconditional claim fails when a suffix-bearing node's stem
coincides with the bare identity (see the counterexample). -/
theorem bare_node_unmerged (g : DiGraph) (v : String)
    (hbare1 : str_ends v ".h" = false) (hbare2 : str_ends v ".cpp" = false)
    (hsolo : ∀ u ∈ g.nodes, get_prefix u = v → u = v)
    (e : String × String) (he : e ∈ g.edges) (hend : e.1 = v ∨ e.2 = v) :
    merge_rename g v = v ∧ v ∈ (merge_header g).nodes := by
  have hv : get_prefix v = v := by
    unfold get_prefix
    rw [hbare1, hbare2]
    simp
  have hcm : can_merge g ( get_prefix v) = false := by
    rw [hv]
    unfold can_merge
    rw [decide_eq_false_iff_not]
    intro h2
    obtain ⟨a, ha, b, hb, hab⟩ := Finset.one_lt_card.mp h2
    obtain ⟨han, hap⟩ := Finset.mem_filter.mp ha
    obtain ⟨hbn, hbp⟩ := Finset.mem_filter.mp hb
    exact hab ((hsolo a han hap).trans (hsolo b hbn hbp).symm)
  have hrn : merge_rename g v = v := by
    unfold merge_rename
    rw [hcm]
    simp
  refine ⟨hrn, ?_⟩
  show v ∈ _ ∪ _
  rw [Finset.mem_union]
  rcases hend with h | h
  · exact Or.inl (Finset.mem_image.mpr ⟨e, he, by rw [h, hrn]⟩)
  · exact Or.inr (Finset.mem_image.mpr ⟨e, he, by rw [h, hrn]⟩)

theorem bare_node_unmerged_witness :
    (str_ends "vector" ".h" = false ∧ str_ends "vector" ".cpp" = false
      ∧ (∀ u ∈ (DiGraph.empty.add_edge "a.cpp" "vector").nodes,
          get_prefix u = "vector" → u = "vector")
      ∧ ("a.cpp", "vector") ∈ (DiGraph.empty.add_edge "a.cpp" "vector").edges)
      ∧ (merge_rename (DiGraph.empty.add_edge "a.cpp" "vector") "vector" = "vector"
        ∧ "vector" ∈ (merge_header (DiGraph.empty.add_edge "a.cpp" "vector")).nodes) :=
  ⟨⟨by decide, by decide, by decide, by decide⟩,
    bare_node_unmerged (DiGraph.empty.add_edge "a.cpp" "vector") "vector"
      (by decide) (by decide) (by decide) ("a.cpp", "vector") (by decide) (Or.inr rfl)⟩

/-- C6: merging the graph with nodes `{a.cpp, a.h, b.h}` and the single
edge `a.cpp -> b.h` yields exactly the node `[merged]a` (replacing
`a.cpp`, with `a.h` nowhere appearing on an edge) together with `b.h`,
and exactly the edge `[merged]a -> b.h`; `b.h` stays unmerged since no
other node shares its stem, and the categorizer assigns `b.h` the header
category (index 1 of `CATEGORYLIST`). -/
theorem merge_example_spec :
    merge_header ⟨{"a.cpp", "a.h", "b.h"}, {("a.cpp", "b.h")}⟩
        = (⟨{"[merged]a", "b.h"}, {("[merged]a", "b.h")}⟩ : DiGraph)
      ∧ determ_category "b.h" = 1 := by
  decide

/-- C10 counterexample: in `collision_graph` the node `[merged]foo` is
isolated (no incident edge), yet after merging `foo.cpp` with `foo.h` the
synthetic node `[merged]foo` is present in the output, so the isolated
input node's identity is NOT absent from the merged graph. -/
theorem merged_degree_counterexample :
    DiGraph.Closed collision_graph
      ∧ "[merged]foo" ∈ collision_graph.nodes
      ∧ (∀ e ∈ collision_graph.edges,
          e.1 ≠ "[merged]foo" ∧ e.2 ≠ "[merged]foo")
      ∧ "[merged]foo" ∈ (merge_header collision_graph).nodes := by
  decide

/-- C10 (amended): every node of `merge_header`'s output has degree at
least 1 (it is an endpoint of some output edge), since the result is
built solely by inserting the remapped input edges; and an input node
that is isolated in the input and whose identity does not begin with the
`[merged]` marker is absent from the merged graph (an isolated node whose
identity collides with a synthetic `[merged]` identity can reappear, see
the counterexample). -/
theorem merged_output_degree (g : DiGraph) (v : String) :
    (v ∈ (merge_header g).nodes →
        1 ≤ (merge_header g).degree v
          ∧ ∃ e ∈ (merge_header g).edges, v = e.1 ∨ v = e.2)
      ∧ ((∀ e ∈ g.edges, e.1 ≠ v ∧ e.2 ≠ v) → str_starts v "[merged]" = false →
          v ∉ (merge_header g).nodes) := by
  constructor
  · intro hv
    rw [show (merge_header g).nodes
        = g.edges.image (fun e => merge_rename g e.1)
            ∪ g.edges.image (fun e => merge_rename g e.2) from rfl,
      Finset.mem_union] at hv
    have hex : ∃ e ∈ (merge_header g).edges, v = e.1 ∨ v = e.2 := by
      rcases hv with h | h
      · obtain ⟨e, he, rfl⟩ := Finset.mem_image.mp h
        exact ⟨(merge_rename g e.1, merge_rename g e.2),
          Finset.mem_image.mpr ⟨e, he, rfl⟩, Or.inl rfl⟩
      · obtain ⟨e, he, rfl⟩ := Finset.mem_image.mp h
        exact ⟨(merge_rename g e.1, merge_rename g e.2),
          Finset.mem_image.mpr ⟨e, he, rfl⟩, Or.inr rfl⟩
    refine ⟨?_, hex⟩
    obtain ⟨e, he, hor⟩ := hex
    unfold DiGraph.degree
    rcases hor with h | h
    · have hmem : e ∈ (merge_header g).edges.filter (fun e => e.1 = v) :=
        Finset.mem_filter.mpr ⟨he, h.symm⟩
      have := Finset.card_pos.mpr ⟨e, hmem⟩
      omega
    · have hmem : e ∈ (merge_header g).edges.filter (fun e => e.2 = v) :=
        Finset.mem_filter.mpr ⟨he, h.symm⟩
      have := Finset.card_pos.mpr ⟨e, hmem⟩
      omega
  · intro hiso hmark hv
    rw [show (merge_header g).nodes
        = g.edges.image (fun e => merge_rename g e.1)
            ∪ g.edges.image (fun e => merge_rename g e.2) from rfl,
      Finset.mem_union] at hv
    rcases hv with h | h
    · obtain ⟨e, he, heq⟩ := Finset.mem_image.mp h
      unfold merge_rename at heq
      split at heq
      · rw [← heq, str_starts_append] at hmark
        exact Bool.noConfusion hmark
      · exact (hiso e he).1 heq
    · obtain ⟨e, he, heq⟩ := Finset.mem_image.mp h
      unfold merge_rename at heq
      split at heq
      · rw [← heq, str_starts_append] at hmark
        exact Bool.noConfusion hmark
      · exact (hiso e he).2 heq

theorem merged_output_degree_witness :
    ("a.cpp" ∈ (merge_header sample_pair_graph).nodes
        ∧ (1 ≤ (merge_header sample_pair_graph).degree "a.cpp"
          ∧ ∃ e ∈ (merge_header sample_pair_graph).edges,
              "a.cpp" = e.1 ∨ "a.cpp" = e.2))
      ∧ ((∀ e ∈ sample_pair_graph.edges, e.1 ≠ "lib" ∧ e.2 ≠ "lib")
        ∧ str_starts "lib" "[merged]" = false
        ∧ "lib" ∉ (merge_header sample_pair_graph).nodes) :=
  ⟨⟨by decide, (merged_output_degree sample_pair_graph "a.cpp").1 (by decide)⟩,
    by decide, by decide,
    (merged_output_degree sample_pair_graph "lib").2 (by decide) (by decide)⟩

/-- C7: the categorizer always returns an index into the fixed ordered
four-label list, deciding in priority order — the source suffix (`cpp`)
is checked first, then the header suffix (`h`), and the `[merged]` marker
only when neither file suffix matched, so the merged-module category is
never assigned to an identity carrying a file suffix. -/
theorem determ_category_spec (node : String) :
    determ_category node < CATEGORYLIST.length
      ∧ (str_ends node "cpp" = true → determ_category node = 0)
      ∧ (str_ends node "cpp" = false → str_ends node "h" = true →
          determ_category node = 1)
      ∧ (str_ends node "cpp" = false → str_ends node "h" = false →
          str_starts node "[merged]" = true → determ_category node = 2)
      ∧ (str_ends node "cpp" = false → str_ends node "h" = false →
          str_starts node "[merged]" = false → determ_category node = 3)
      ∧ (determ_category node = 2 →
          str_ends node "cpp" = false ∧ str_ends node "h" = false) := by
  cases h1 : str_ends node "cpp" <;> cases h2 : str_ends node "h" <;>
    cases h3 : str_starts node "[merged]" <;>
      simp [determ_category, CATEGORYLIST, h1, h2, h3]

theorem determ_category_spec_witness :
    (str_ends "b.h" "cpp" = false ∧ str_ends "b.h" "h" = true)
      ∧ determ_category "b.h" = 1 :=
  ⟨⟨by decide, by decide⟩,
    (determ_category_spec "b.h").2.2.1 (by decide) (by decide)⟩

/-- C8: a rendered node's size is `floor(3 * ln(1 + degree)) + 1` for its
total in-plus-out degree in the rendered graph; it is always at least 1,
equals exactly 1 for an isolated node (degree 0), and is monotonically
non-decreasing in the degree. -/
theorem calc_node_size_spec (g : DiGraph) (node : String) :
    calc_node_size g node
        = ⌊(3 : ℝ) * Real.log (1 + (g.degree node : ℝ))⌋ + 1
      ∧ 1 ≤ calc_node_size g node
      ∧ (g.degree node = 0 → calc_node_size g node = 1)
      ∧ ∀ (g' : DiGraph) (node' : String),
          g.degree node ≤ g'.degree node' →
            calc_node_size g node ≤ calc_node_size g' node' := by
  refine ⟨rfl, ?_, ?_, ?_⟩
  · unfold calc_node_size
    have h0 : (0 : ℝ) ≤ 3 * Real.log (1 + (g.degree node : ℝ)) := by
      refine mul_nonneg (by norm_num) (Real.log_nonneg ?_)
      have : (0 : ℝ) ≤ (g.degree node : ℝ) := Nat.cast_nonneg _
      linarith
    have := Int.floor_nonneg.mpr h0
    omega
  · intro h
    unfold calc_node_size
    rw [h]
    norm_num
  · intro g' node' hle
    unfold calc_node_size
    have hlog : Real.log (1 + (g.degree node : ℝ))
        ≤ Real.log (1 + (g'.degree node' : ℝ)) := by
      refine Real.log_le_log (by positivity) ?_
      have : (g.degree node : ℝ) ≤ (g'.degree node' : ℝ) := Nat.cast_le.mpr hle
      linarith
    have := Int.floor_le_floor
      (mul_le_mul_of_nonneg_left hlog (by norm_num : (0 : ℝ) ≤ 3))
    omega

theorem calc_node_size_spec_witness :
    DiGraph.empty.degree "x" = 0 ∧ calc_node_size DiGraph.empty "x" = 1 :=
  ⟨by decide, (calc_node_size_spec DiGraph.empty "x").2.2.1 (by decide)⟩

/-- A decode failure truncates the scan of a single file at the failure
point, keeping the graph accumulated from the earlier lines. -/
theorem scan_file_decode_stop (src : String) :
    ∀ (ls₁ : FileLines), none ∉ ls₁ → ∀ (g : DiGraph) (ls₂ : FileLines),
      scan_file g src (ls₁ ++ none :: ls₂) = scan_file g src ls₁ := by
  intro ls₁
  induction ls₁ with
  | nil => intro h g ls₂; rfl
  | cons hd tl ih =>
    intro hmem g ls₂
    cases hd with
    | none => exact absurd (List.mem_cons_self none tl) hmem
    | some line =>
      have htl : none ∉ tl := fun h => hmem (List.mem_cons_of_mem _ h)
      show (match process_line line.data with
          | some inc => scan_file (g.add_edge src ⟨inc⟩) src (tl ++ none :: ls₂)
          | none => scan_file g src (tl ++ none :: ls₂))
        = match process_line line.data with
          | some inc => scan_file (g.add_edge src ⟨inc⟩) src tl
          | none => scan_file g src tl
      cases process_line line.data with
      | some inc => exact ih htl (g.add_edge src ⟨inc⟩) ls₂
      | none => exact ih htl g ls₂

/-- C9: when a scanned file fails to decode at some line, the scan of
that file stops there and the failure is recovered silently — the whole
run produces exactly the graph it would produce had the file ended just
before the failing line: edges from the file's earlier lines are kept and
the remaining files are still scanned. -/
theorem decode_failure_spec (pre post : List (String × FileLines))
    (src : String) (ls₁ ls₂ : FileLines) (h : none ∉ ls₁) :
    build_graph (pre ++ (src, ls₁ ++ none :: ls₂) :: post)
      = build_graph (pre ++ (src, ls₁) :: post) := by
  unfold build_graph
  rw [List.foldl_append, List.foldl_append, List.foldl_cons, List.foldl_cons]
  rw [scan_file_decode_stop src ls₁ h]

theorem decode_failure_spec_witness :
    (none ∉ ([some "#include <x>"] : FileLines))
      ∧ build_graph
            [("a.cpp", [some "#include <x>", none, some "#include <y>"]),
              ("b.h", [some "#include <z>"])]
          = build_graph
              [("a.cpp", [some "#include <x>"]), ("b.h", [some "#include <z>"])] :=
  ⟨by decide,
    decode_failure_spec [] [("b.h", [some "#include <z>"])] "a.cpp"
      [some "#include <x>"] [some "#include <y>"] (by decide)⟩
